import Mathlib

/-!
Verification development for the water-flow DAQ real-time plotter
(`water_flow_daq_realTimePlot.py`).

The embedding models the acquisition pipeline of `RealTimePlot`:

* `decodeRaw` embeds the `struct.unpack` calls of `__get_data`
  (lines 234-242): a 24-byte packet yields a 6-element row
  `[timeStamp, press1Bar, press2Bar, fm_gps, temp1C, temp2C]`.
  IEEE-754 float channels are represented by their raw little-endian
  32-bit patterns (a `Nat`), since the program only reinterprets bytes
  and never performs float arithmetic on them.
* `getRun` embeds the per-packet body of the `while True` loop of
  `__get_data` (lines 227-255): the `count` gate, the synthesized clock
  `self._time += self._update_rate`, the CSV append, and the
  `data_sent.emit` decision, applied to a finite list of packets.
* `dispUpdate` / `pushAll` embed `__update` (lines 189-204): the
  per-channel appends, the `current_time / 1000` x-value, and the
  FIFO eviction when a series exceeds `max_size`.
* `packetizeF` / `packetize` embed the framing behaviour of
  `readinto` on the byte stream: only full 24-byte blocks are consumed;
  a trailing fragment shorter than one packet is never processed.
* `initNames` / `initLog` embed the configuration steps of `__init__`
  (lines 113-121 and 161-175).
-/

/-- Little-endian word value of a list of bytes, least significant byte
first.  `leWord [b0, b1, b2, b3]` is the value `struct.unpack` reads from
the 4-byte slice `[b0, b1, b2, b3]` (for `'I'` directly; for `'f'` it is
the raw bit pattern of the float). -/
def leWord : List Nat → Nat
  | [] => 0
  | b :: rest => b + 256 * leWord rest

/-- The 4-byte little-endian word stored at byte offset `off` of a packet:
`struct.unpack(_, packet[off:off+4])[0]`. -/
def wordAt (p : List Nat) (off : Nat) : Nat :=
  leWord ((p.drop off).take 4)

/-- The decoded row `raw_data = [timeStamp, press1Bar, press2Bar, fm_gps,
temp1C, temp2C]` built in `__get_data` from the slices `[0:4]`, `[4:8]`,
`[8:12]`, `[12:16]`, `[16:20]`, `[20:24]` of the 24-byte packet. -/
def decodeRaw (p : List Nat) : List Nat :=
  [wordAt p 0, wordAt p 4, wordAt p 8, wordAt p 12, wordAt p 16, wordAt p 20]

/-- Configuration of `RealTimePlot` relevant to the acquisition loop:
`self._update_rate`, `self._sensor_rate`, `self._time_from_serial`,
`self._write_to_file`. -/
structure DAQConfig where
  update_rate : Nat
  sensor_rate : Nat
  time_from_serial : Bool
  write_to_file : Bool
  deriving DecidableEq, Repr

/-- Mutable loop state of `__get_data`: the local `count` and the
synthesized clock `self._time`. -/
structure DAQState where
  count : Nat
  time : Nat
  deriving DecidableEq, Repr

/-- The `(time, values)` pair `data` built in `__get_data` for one packet:
`raw_data[0], raw_data[1:]` when `self._time_from_serial`, otherwise the
advanced clock `self._time + self._update_rate` paired with the full
`raw_data`. -/
def stepData (cfg : DAQConfig) (st : DAQState) (p : List Nat) : Nat × List Nat :=
  let raw := decodeRaw p
  if cfg.time_from_serial then (raw.headD 0, raw.tail)
  else (st.time + cfg.update_rate, raw)

/-- Evolution of the synthesized clock across one packet:
`self._time += self._update_rate` runs only in the
`not self._time_from_serial` branch. -/
def stepTime (cfg : DAQConfig) (t : Nat) : Nat :=
  if cfg.time_from_serial then t else t + cfg.update_rate

/-- One iteration body of the `while True` loop of `__get_data` applied to
each packet of a finite list, in order.  Returns the final state, the rows
appended to the CSV file (`__write_to_csv(raw_data)` when
`self._write_to_file`), and the per-packet emission trace: `some data`
when `count == self._update_rate // self._sensor_rate` fired
(`self.data_sent.emit(data)`, after which `count = 0`), else `none`. -/
def getRun (cfg : DAQConfig) : DAQState → List (List Nat) →
    DAQState × List (List Nat) × List (Option (Nat × List Nat))
  | st, [] => (st, [], [])
  | st, p :: ps =>
    let count := st.count + 1
    let fire := count = cfg.update_rate / cfg.sensor_rate
    let st' : DAQState := ⟨if fire then 0 else count, stepTime cfg st.time⟩
    let logs := if cfg.write_to_file then [decodeRaw p] else []
    let e := if fire then some (stepData cfg st p) else none
    let rest := getRun cfg st' ps
    (rest.1, logs ++ rest.2.1, e :: rest.2.2)

/-- Rows appended to the CSV log over a run of the acquisition loop. -/
def getLogs (cfg : DAQConfig) (st : DAQState) (ps : List (List Nat)) :
    List (List Nat) :=
  (getRun cfg st ps).2.1

/-- Per-packet emission trace of a run: one entry per decoded packet. -/
def getTrace (cfg : DAQConfig) (st : DAQState) (ps : List (List Nat)) :
    List (Option (Nat × List Nat)) :=
  (getRun cfg st ps).2.2

/-- The `(time, values)` pairs actually emitted to the display path. -/
def getEmits (cfg : DAQConfig) (st : DAQState) (ps : List (List Nat)) :
    List (Nat × List Nat) :=
  (getTrace cfg st ps).filterMap id

/-- Display-side state of `__update`: the lists `self._datas_x` and
`self._datas_y` of per-channel series.  x-values are the seconds values
`current_time / 1000`, modelled exactly as rationals. -/
structure DispState where
  xs : List (List Rat)
  ys : List (List Nat)
  deriving DecidableEq, Repr

/-- One call of `__update` with payload `(t, values)`:
if `values` is nonempty, append `value` to each y-series (via
`zip(self._datas_y, values)`), append `t / 1000` to each x-series, then,
if the first y-series now exceeds `max_size`, drop the oldest point of
every series. -/
def dispUpdate (max_size : Nat) (st : DispState) (t : Nat) (values : List Nat) :
    DispState :=
  if values = [] then st
  else
    let ys' := (st.ys.zip values).map (fun q => q.1 ++ [q.2])
    let xs' := st.xs.map (fun dx => dx ++ [(t : Rat) / 1000])
    if max_size < (ys'.headD []).length then
      ⟨xs'.map (fun dx => dx.drop 1), ys'.map (fun dy => dy.drop 1)⟩
    else ⟨xs', ys'⟩

/-- The initial display state of `__init__`: `n` empty x-series and `n`
empty y-series (`[np.array([])] * self._num_of_data`). -/
def initDisp (n : Nat) : DispState :=
  ⟨List.replicate n [], List.replicate n []⟩

/-- A sequence of `__update` calls, oldest first. -/
def pushAll (max_size : Nat) (st : DispState) (ps : List (Nat × List Nat)) :
    DispState :=
  ps.foldl (fun s q => dispUpdate max_size s q.1 q.2) st

/-- Fuel-indexed splitting of a byte stream into consecutive full 24-byte
packets plus the unconsumed remainder.  `readinto(self._data_packet)`
consumes exactly 24 bytes and blocks until they are available, so a
trailing fragment shorter than 24 bytes is never handed to the decoder. -/
def packetizeF : Nat → List Nat → List (List Nat) × List Nat
  | 0, s => ([], s)
  | fuel + 1, s =>
    if 24 ≤ s.length then
      let rest := packetizeF fuel (s.drop 24)
      (s.take 24 :: rest.1, rest.2)
    else ([], s)

/-- Split a byte stream into full 24-byte packets and the remainder. -/
def packetize (s : List Nat) : List (List Nat) × List Nat :=
  packetizeF s.length s

/-- Run of the acquisition loop over a raw byte stream: only the full
24-byte blocks are decoded and dispatched. -/
def streamRun (cfg : DAQConfig) (st : DAQState) (s : List Nat) :
    DAQState × List (List Nat) × List (Option (Nat × List Nat)) :=
  getRun cfg st (packetize s).1

/-- The `data_set` handling of `__init__` (lines 113-121): the flag
`self._time_from_serial` is set exactly when the first name is the literal
string "time (ms)", in which case that name is removed; the remaining
names are the plotted series.  (The Python code indexes `data_set[0]`, so
it is only meaningful for a nonempty list.) -/
def initNames (data_set : List String) : Bool × List String :=
  if data_set.headD "" = "time (ms)" then (true, data_set.tail)
  else (false, data_set)

/-- The log-file initialisation of `__init__` (lines 161-175): when
`write_to_file` is set, a file is created whose header row is
`["time"] + data_set`; otherwise no file is created at all. -/
def initLog (write_to_file : Bool) (data_set : List String) :
    Option (List String) :=
  if write_to_file then some ("time" :: data_set) else none

/-- An all-zero 24-byte packet, used as a concrete test input. -/
def pkt0 : List Nat := List.replicate 24 0

example : decodeRaw pkt0 = [0, 0, 0, 0, 0, 0] := by decide

example : decodeRaw (List.range 24) =
    [leWord [0, 1, 2, 3], leWord [4, 5, 6, 7], leWord [8, 9, 10, 11],
     leWord [12, 13, 14, 15], leWord [16, 17, 18, 19],
     leWord [20, 21, 22, 23]] := by decide

example :
    (getEmits ⟨50, 10, false, true⟩ ⟨0, 0⟩ (List.replicate 10 pkt0)).length
      = 2 := by decide

example :
    (getLogs ⟨50, 10, false, true⟩ ⟨0, 0⟩ (List.replicate 10 pkt0)).length
      = 10 := by decide

example :
    getEmits ⟨10, 50, false, false⟩ ⟨0, 0⟩ [pkt0] = [] := by decide

example :
    (getEmits ⟨20, 10, false, false⟩ ⟨0, 0⟩ [pkt0, pkt0]).map Prod.fst
      = [40] := by decide

example : packetize (pkt0 ++ [1, 2, 3]) = ([pkt0], [1, 2, 3]) := by decide

/-! ### Unfolding lemmas for the acquisition loop -/

theorem getTrace_nil (cfg : DAQConfig) (st : DAQState) :
    getTrace cfg st [] = [] := rfl

theorem getTrace_cons (cfg : DAQConfig) (st : DAQState) (p : List Nat)
    (ps : List (List Nat)) :
    getTrace cfg st (p :: ps)
      = (if st.count + 1 = cfg.update_rate / cfg.sensor_rate
          then some (stepData cfg st p) else none)
        :: getTrace cfg
            ⟨if st.count + 1 = cfg.update_rate / cfg.sensor_rate then 0
              else st.count + 1,
             stepTime cfg st.time⟩ ps := rfl

theorem getLogs_nil (cfg : DAQConfig) (st : DAQState) :
    getLogs cfg st [] = [] := rfl

theorem getLogs_cons (cfg : DAQConfig) (st : DAQState) (p : List Nat)
    (ps : List (List Nat)) :
    getLogs cfg st (p :: ps)
      = (if cfg.write_to_file then [decodeRaw p] else [])
        ++ getLogs cfg
            ⟨if st.count + 1 = cfg.update_rate / cfg.sensor_rate then 0
              else st.count + 1,
             stepTime cfg st.time⟩ ps := rfl

theorem getEmits_cons (cfg : DAQConfig) (st : DAQState) (p : List Nat)
    (ps : List (List Nat)) :
    getEmits cfg st (p :: ps)
      = (if st.count + 1 = cfg.update_rate / cfg.sensor_rate
          then [stepData cfg st p] else [])
        ++ getEmits cfg
            ⟨if st.count + 1 = cfg.update_rate / cfg.sensor_rate then 0
              else st.count + 1,
             stepTime cfg st.time⟩ ps := by
  by_cases hfire : st.count + 1 = cfg.update_rate / cfg.sensor_rate <;>
    simp [getEmits, getTrace_cons, hfire]

/-- Which positions of the packet stream fire the `count` gate: starting
from any `count` strictly below `K = update_rate // sensor_rate`, the
`i`-th packet (0-based) is emitted exactly when `count + i + 1` is a
multiple of `K`. -/
theorem trace_isSome_pattern (cfg : DAQConfig) (ps : List (List Nat))
    (st : DAQState) (hc : st.count < cfg.update_rate / cfg.sensor_rate) :
    (getTrace cfg st ps).map Option.isSome
      = (List.range ps.length).map
          (fun i =>
            decide ((st.count + i + 1) % (cfg.update_rate / cfg.sensor_rate) = 0)) := by
  induction ps generalizing st with
  | nil => simp [getTrace, getRun]
  | cons p ps ih =>
    rw [getTrace_cons, List.map_cons, List.length_cons,
      List.range_succ_eq_map, List.map_cons, List.map_map]
    by_cases hfire : st.count + 1 = cfg.update_rate / cfg.sensor_rate
    · have h0 : (0 : Nat) < cfg.update_rate / cfg.sensor_rate := by omega
      simp only [if_pos hfire]
      rw [ih ⟨0, stepTime cfg st.time⟩ h0]
      congr 1
      · have : st.count + 0 + 1 = cfg.update_rate / cfg.sensor_rate := by omega
        simp [this, Nat.mod_self]
      · apply List.map_congr_left
        intro i _
        simp only [Function.comp]
        rw [decide_eq_decide]
        have h1 : 0 + i + 1 = i + 1 := by omega
        have h2 : st.count + Nat.succ i + 1
            = cfg.update_rate / cfg.sensor_rate + (i + 1) := by omega
        rw [h1, h2, Nat.add_mod_left]
    · have hlt : st.count + 1 < cfg.update_rate / cfg.sensor_rate := by omega
      simp only [if_neg hfire]
      rw [ih ⟨st.count + 1, stepTime cfg st.time⟩ hlt]
      congr 1
      · have : (st.count + 0 + 1) % (cfg.update_rate / cfg.sensor_rate)
            = st.count + 1 := by
          have : st.count + 0 + 1 = st.count + 1 := by omega
          rw [this, Nat.mod_eq_of_lt hlt]
        simp [this]
      · apply List.map_congr_left
        intro i _
        simp only [Function.comp]
        rw [decide_eq_decide]
        have : st.count + 1 + i + 1 = st.count + Nat.succ i + 1 := by omega
        rw [this]

/-- When `update_rate // sensor_rate = 0`, the gate `count == 0` can never
fire (`count` starts at 1 and only grows), so nothing is ever emitted. -/
theorem emits_nil_of_gate_zero (cfg : DAQConfig) (ps : List (List Nat))
    (st : DAQState) (h : cfg.update_rate / cfg.sensor_rate = 0) :
    getEmits cfg st ps = [] := by
  induction ps generalizing st with
  | nil => rfl
  | cons p ps ih =>
    rw [getEmits_cons]
    have hne : ¬ (st.count + 1 = cfg.update_rate / cfg.sensor_rate) := by omega
    simp only [if_neg hne, List.nil_append]
    exact ih _

/-- Number of emissions over a finite run: starting from `count` strictly
below `K`, `T` packets produce `(count + T) / K` emissions. -/
theorem emits_length_div (cfg : DAQConfig) (ps : List (List Nat))
    (st : DAQState) (hc : st.count < cfg.update_rate / cfg.sensor_rate) :
    (getEmits cfg st ps).length
      = (st.count + ps.length) / (cfg.update_rate / cfg.sensor_rate) := by
  induction ps generalizing st with
  | nil =>
    simp [getEmits, getTrace, getRun, Nat.div_eq_of_lt hc]
  | cons p ps ih =>
    rw [getEmits_cons]
    by_cases hfire : st.count + 1 = cfg.update_rate / cfg.sensor_rate
    · have h0 : (0 : Nat) < cfg.update_rate / cfg.sensor_rate := by omega
      simp only [if_pos hfire]
      rw [List.length_append, ih ⟨0, stepTime cfg st.time⟩ h0]
      have harg : st.count + (p :: ps).length
          = ps.length + cfg.update_rate / cfg.sensor_rate := by
        simp only [List.length_cons]; omega
      rw [harg, Nat.add_div_right _ h0]
      simp only [List.length_singleton, Nat.zero_add]
      omega
    · have hlt : st.count + 1 < cfg.update_rate / cfg.sensor_rate := by omega
      simp only [if_neg hfire]
      rw [List.length_append, ih ⟨st.count + 1, stepTime cfg st.time⟩ hlt]
      have harg : st.count + 1 + ps.length = st.count + (p :: ps).length := by
        simp only [List.length_cons]; omega
      rw [harg]
      simp

/-- Rows appended to the CSV log: every decoded packet contributes exactly
its `raw_data` row when logging is enabled, and nothing otherwise. -/
theorem logs_eq (cfg : DAQConfig) (st : DAQState) (ps : List (List Nat)) :
    getLogs cfg st ps = if cfg.write_to_file then ps.map decodeRaw else [] := by
  induction ps generalizing st with
  | nil => by_cases hw : cfg.write_to_file <;> simp [getLogs, getRun, hw]
  | cons p ps ih =>
    rw [getLogs_cons, ih]
    by_cases hw : cfg.write_to_file <;> simp [hw]

/-! ### Concrete configurations used by counterexamples and witnesses -/

/-- A configuration with `update_rate < sensor_rate` (so
`update_rate // sensor_rate = 0`), host-synthesized time, logging off. -/
def cfgNC : DAQConfig := ⟨10, 50, false, false⟩

/-- A configuration with `update_rate // sensor_rate = 2`, host-synthesized
time, logging off. -/
def cfgY : DAQConfig := ⟨20, 10, false, false⟩

/-- The spec scenario configuration: `update_rate = 50`, `sensor_rate = 10`
(gate `K = 5`), host-synthesized time, logging on. -/
def cfgS : DAQConfig := ⟨50, 10, false, true⟩

/-- C1, counterexample: the claim says the forwarding period `K` is
clamped to at least 1, so with `update_rate < sensor_rate` every decoded
sample would be forwarded.  The code compares the running `count` against
the unclamped `update_rate // sensor_rate = 0`, which `count` (≥ 1) never
equals: with `update_rate = 10 < 50 = sensor_rate`, one decoded packet
produces zero forwards instead of one. -/
theorem c1_no_forward_counterexample :
    cfgNC.update_rate < cfgNC.sensor_rate ∧ ([pkt0] : List (List Nat)).length = 1
      ∧ (getEmits cfgNC ⟨0, 0⟩ [pkt0]).length = 0 := by decide

/-- C1 (amended): the divisor `K = update_rate // sensor_rate` is NOT
clamped.  When `K ≥ 1` the scheduler forwards exactly once every `K`
consecutive decoded samples (the `i`-th 0-based packet is forwarded iff
`i + 1` is a multiple of `K`); when `sensor_rate > update_rate` (so
`K = 0`) no sample is ever forwarded to the display. -/
theorem c1_forward_every_kth_amended (cfg : DAQConfig) (ps : List (List Nat)) :
    (1 ≤ cfg.update_rate / cfg.sensor_rate →
      (getTrace cfg ⟨0, 0⟩ ps).map Option.isSome
        = (List.range ps.length).map
            (fun i => decide ((i + 1) % (cfg.update_rate / cfg.sensor_rate) = 0)))
    ∧ (cfg.update_rate < cfg.sensor_rate → getEmits cfg ⟨0, 0⟩ ps = []) := by
  constructor
  · intro hK
    have h := trace_isSome_pattern cfg ps ⟨0, 0⟩ hK
    simpa using h
  · intro hlt
    exact emits_nil_of_gate_zero cfg ps ⟨0, 0⟩ (Nat.div_eq_of_lt hlt)

/-- C1 witness: with `K = 2` and four packets the forwarded positions are
exactly the 2nd and 4th. -/
theorem c1_forward_every_kth_amended_witness :
    (getTrace cfgY ⟨0, 0⟩ [pkt0, pkt0, pkt0, pkt0]).map Option.isSome
      = (List.range 4).map
          (fun i => decide ((i + 1) % (cfgY.update_rate / cfgY.sensor_rate) = 0)) :=
  (c1_forward_every_kth_amended cfgY [pkt0, pkt0, pkt0, pkt0]).1 (by decide)

/-- C2, counterexample: the claim says the internal clock is advanced by
`update_rate` exactly once per FORWARDED sample, so with gate `K = 2` the
first forwarded sample would carry time `1 * update_rate = 20`.  The code
advances `self._time` on every DECODED sample, so after two decoded
packets the single forwarded sample carries `2 * update_rate = 40`. -/
theorem c2_clock_per_decode_counterexample :
    cfgY.time_from_serial = false
      ∧ (getEmits cfgY ⟨0, 0⟩ [pkt0, pkt0]).map Prod.fst = [40]
      ∧ (1 * cfgY.update_rate : Nat) ≠ 40 := by decide

/-- C2 (amended): in host-synthesized time mode the internal clock is
advanced by `update_rate` once per DECODED sample, so the `i`-th (0-based)
decoded sample, if forwarded, carries time `initial + (i + 1) *
update_rate`; in instrument-timestamp mode a forwarded sample carries the
device timestamp decoded from bytes `[0, 4)` of its own packet,
unchanged. -/
theorem c2_forwarded_time_amended (cfg : DAQConfig) (ps : List (List Nat))
    (st : DAQState) (i : Nat) (d : Nat × List Nat)
    (h : (getTrace cfg st ps).getD i none = some d) :
    d.1 = if cfg.time_from_serial then wordAt (ps.getD i []) 0
          else st.time + (i + 1) * cfg.update_rate := by
  induction ps generalizing st i with
  | nil => simp [getTrace_nil] at h
  | cons p ps ih =>
    rw [getTrace_cons] at h
    cases i with
    | zero =>
      rw [List.getD_cons_zero] at h
      by_cases hfire : st.count + 1 = cfg.update_rate / cfg.sensor_rate
      · rw [if_pos hfire] at h
        obtain rfl : d = stepData cfg st p := (Option.some.inj h).symm
        cases hts : cfg.time_from_serial with
        | true => simp [stepData, hts, decodeRaw]
        | false => simp [stepData, hts]
      · rw [if_neg hfire] at h
        exact absurd h (by simp)
    | succ i =>
      rw [List.getD_cons_succ] at h
      have hrec := ih
        ⟨if st.count + 1 = cfg.update_rate / cfg.sensor_rate then 0
          else st.count + 1, stepTime cfg st.time⟩ i h
      cases hts : cfg.time_from_serial with
      | true => simpa [hts, List.getD_cons_succ] using hrec
      | false =>
        simp [hts, stepTime] at hrec
        simp only [hts, Bool.false_eq_true, if_false]
        rw [hrec]
        ring

/-- C2 witness: with gate `K = 2` and two packets, the entry at trace
position 1 is forwarded and carries the synthesized time
`0 + (1 + 1) * update_rate = 40`. -/
theorem c2_forwarded_time_amended_witness :
    (getTrace cfgY ⟨0, 0⟩ [pkt0, pkt0]).getD 1 none = some (40, decodeRaw pkt0)
      ∧ ((40 : Nat), decodeRaw pkt0).1
          = (if cfgY.time_from_serial then wordAt ([pkt0, pkt0].getD 1 []) 0
             else (0 : Nat) + (1 + 1) * cfgY.update_rate) :=
  ⟨by decide,
   c2_forwarded_time_amended cfgY [pkt0, pkt0] ⟨0, 0⟩ 1 (40, decodeRaw pkt0)
     (by decide)⟩

/-- C3: with `K = update_rate // sensor_rate ≥ 1`, a steady stream of `T`
valid decoded samples produces exactly `T / K` forwards to the display,
while (when logging is enabled) all `T` samples are logged. -/
theorem c3_forward_count (cfg : DAQConfig) (ps : List (List Nat))
    (hK : 1 ≤ cfg.update_rate / cfg.sensor_rate) :
    (getEmits cfg ⟨0, 0⟩ ps).length
        = ps.length / (cfg.update_rate / cfg.sensor_rate)
      ∧ (cfg.write_to_file = true → (getLogs cfg ⟨0, 0⟩ ps).length = ps.length) := by
  constructor
  · have h := emits_length_div cfg ps ⟨0, 0⟩ hK
    simpa using h
  · intro hw
    simp [logs_eq, hw]

/-- C3 witness: the spec scenario — 10 packets, `sensor_rate = 10`,
`update_rate = 50`, so `K = 5`: exactly 2 samples forwarded, all 10
logged. -/
theorem c3_forward_count_witness :
    ((getEmits cfgS ⟨0, 0⟩ (List.replicate 10 pkt0)).length
        = (List.replicate 10 pkt0 : List (List Nat)).length
            / (cfgS.update_rate / cfgS.sensor_rate))
      ∧ ((List.replicate 10 pkt0 : List (List Nat)).length
            / (cfgS.update_rate / cfgS.sensor_rate) = 2)
      ∧ (getLogs cfgS ⟨0, 0⟩ (List.replicate 10 pkt0)).length
          = (List.replicate 10 pkt0 : List (List Nat)).length :=
  ⟨(c3_forward_count cfgS (List.replicate 10 pkt0) (by decide)).1, by decide,
   (c3_forward_count cfgS (List.replicate 10 pkt0) (by decide)).2 rfl⟩

/-! ### Display buffer lemmas -/

/-- Zipping an indexed family with a list of matching length is again an
indexed family. -/
theorem zip_map_range {α β : Type} (d : β) (n : Nat) (g : Nat → α)
    (v : List β) (hv : v.length = n) :
    ((List.range n).map g).zip v
      = (List.range n).map (fun j => (g j, v.getD j d)) := by
  induction n generalizing v g with
  | zero => simp
  | succ n ih =>
    cases v with
    | nil => simp at hv
    | cons a v =>
      rw [List.range_succ_eq_map]
      simp only [List.map_cons, List.map_map, List.zip_cons_cons,
        List.getD_cons_zero, Function.comp_def, Nat.succ_eq_add_one]
      congr 1
      rw [ih (fun j => g (j + 1)) v (by simpa using hv)]
      apply List.map_congr_left
      intro j _
      simp

/-- Head (with default) of a nonempty indexed family. -/
theorem headD_map_range {α : Type} (n : Nat) (h : Nat → α) (d : α)
    (hn : 0 < n) : ((List.range n).map h).headD d = h 0 := by
  cases n with
  | zero => omega
  | succ n =>
    rw [List.range_succ_eq_map]
    simp

/-- One `__update` call on a display state whose series form an indexed
family: each series gets its value appended, and when the first y-series
exceeds `max_size` every series loses its oldest point. -/
theorem dispUpdate_shape (n m : Nat) (hn : 0 < n) (gx : Nat → List Rat)
    (gy : Nat → List Nat) (t : Nat) (v : List Nat) (hv : v.length = n) :
    dispUpdate m ⟨(List.range n).map gx, (List.range n).map gy⟩ t v
      = if m < (gy 0).length + 1 then
          ⟨(List.range n).map (fun j => (gx j ++ [(t : Rat) / 1000]).drop 1),
           (List.range n).map (fun j => (gy j ++ [v.getD j 0]).drop 1)⟩
        else
          ⟨(List.range n).map (fun j => gx j ++ [(t : Rat) / 1000]),
           (List.range n).map (fun j => gy j ++ [v.getD j 0])⟩ := by
  have hne : ¬ (v = []) := by
    intro h0
    rw [h0] at hv
    simp at hv
    omega
  simp only [dispUpdate, if_neg hne]
  rw [zip_map_range 0 n gy v hv]
  rw [List.map_map, List.map_map]
  rw [headD_map_range n _ [] hn]
  simp only [Function.comp, List.length_append, List.length_singleton]
  split_ifs with hcond
  · congr 1 <;> rw [List.map_map] <;> simp [Function.comp_def]
  · congr 1 <;> rw [List.map_map] <;> simp [Function.comp_def]

/-- Closed form for the display state after any sequence of `__update`
calls from the empty buffer, provided each payload carries one value per
series: each y-series `j` holds the most recent `min (length, max_size)`
pushed values of channel `j`, and each x-series holds the corresponding
pushed times divided by 1000. -/
theorem pushAll_closed (n m : Nat) (hn : 0 < n) :
    ∀ ps : List (Nat × List Nat), (∀ q ∈ ps, q.2.length = n) →
      (pushAll m (initDisp n) ps).xs
          = (List.range n).map
              (fun _ => (ps.map (fun q => (q.1 : Rat) / 1000)).drop (ps.length - m))
        ∧ (pushAll m (initDisp n) ps).ys
          = (List.range n).map
              (fun j => (ps.map (fun q => q.2.getD j 0)).drop (ps.length - m)) := by
  intro ps
  induction ps using List.reverseRecOn with
  | nil =>
    intro _
    constructor <;> simp [pushAll, initDisp, List.map_const']
  | append_singleton qs q ih =>
    intro hps
    have hq : q.2.length = n := hps q (List.mem_append_right _ (List.mem_singleton_self q))
    have hqs : ∀ r ∈ qs, r.2.length = n := fun r hr => hps r (List.mem_append_left _ hr)
    obtain ⟨hx, hy⟩ := ih hqs
    have hstep : pushAll m (initDisp n) (qs ++ [q])
        = dispUpdate m (pushAll m (initDisp n) qs) q.1 q.2 := by
      simp [pushAll, List.foldl_append]
    rw [hstep]
    have hshape : pushAll m (initDisp n) qs
        = ⟨(List.range n).map
            (fun _ => (qs.map (fun r => (r.1 : Rat) / 1000)).drop (qs.length - m)),
           (List.range n).map
            (fun j => (qs.map (fun r => r.2.getD j 0)).drop (qs.length - m))⟩ := by
      cases hpq : pushAll m (initDisp n) qs with
      | mk a b =>
        rw [hpq] at hx hy
        simp only at hx hy
        rw [hx, hy]
    rw [hshape, dispUpdate_shape n m hn _ _ q.1 q.2 hq]
    simp only [List.length_drop, List.length_map, List.length_append,
      List.length_singleton]
    by_cases hLm : m ≤ qs.length
    · have hcond : m < qs.length - (qs.length - m) + 1 := by omega
      rw [if_pos hcond]
      constructor
      · apply List.map_congr_left
        intro j hj
        rw [List.map_append, List.map_singleton]
        rw [List.drop_append_eq_append_drop, List.drop_append_eq_append_drop,
          List.drop_drop]
        simp only [List.length_drop, List.length_map]
        have e1 : qs.length - m + 1 = qs.length + 1 - m := by omega
        have e2 : 1 - (qs.length - (qs.length - m)) = qs.length + 1 - m - qs.length := by
          omega
        rw [e1, e2]
      · apply List.map_congr_left
        intro j hj
        rw [List.map_append, List.map_singleton]
        rw [List.drop_append_eq_append_drop, List.drop_append_eq_append_drop,
          List.drop_drop]
        simp only [List.length_drop, List.length_map]
        have e1 : qs.length - m + 1 = qs.length + 1 - m := by omega
        have e2 : 1 - (qs.length - (qs.length - m)) = qs.length + 1 - m - qs.length := by
          omega
        rw [e1, e2]
    · have hcond : ¬ (m < qs.length - (qs.length - m) + 1) := by omega
      rw [if_neg hcond]
      have hz1 : qs.length - m = 0 := by omega
      have hz2 : qs.length + 1 - m = 0 := by omega
      constructor
      · simp [hz1, hz2]
      · simp [hz1, hz2]

/-- Element `j` of an indexed family. -/
theorem getD_map_range {α : Type} (n j : Nat) (g : Nat → α) (d : α)
    (hj : j < n) : ((List.range n).map g).getD j d = g j := by
  rw [List.getD_eq_getElem?_getD, List.getElem?_map, List.getElem?_range hj]
  rfl

/-- C4: after `M > max_size` pushes (each carrying one value per series)
starting from the empty buffer, every y-series and every x-series holds
exactly `max_size` points, namely the most recent `max_size` pushed
(time, value) pairs in arrival order — FIFO eviction of the oldest. -/
theorem c4_display_buffer_fifo (n m : Nat) (ps : List (Nat × List Nat))
    (j : Nat) (hn : 0 < n) (hps : ∀ q ∈ ps, q.2.length = n)
    (hM : m < ps.length) (hj : j < n) :
    ((pushAll m (initDisp n) ps).ys.getD j []
        = (ps.map (fun q => q.2.getD j 0)).drop (ps.length - m))
      ∧ ((pushAll m (initDisp n) ps).ys.getD j []).length = m
      ∧ ((pushAll m (initDisp n) ps).xs.getD j []
          = (ps.map (fun q => (q.1 : Rat) / 1000)).drop (ps.length - m))
      ∧ ((pushAll m (initDisp n) ps).xs.getD j []).length = m := by
  obtain ⟨hx, hy⟩ := pushAll_closed n m hn ps hps
  rw [hy, hx, getD_map_range n j _ _ hj, getD_map_range n j _ _ hj]
  refine ⟨rfl, ?_, rfl, ?_⟩
  · simp
    omega
  · simp
    omega

/-- A concrete sequence of two display pushes with two channels. -/
def psW : List (Nat × List Nat) := [(1000, [10, 20]), (2000, [30, 40])]

/-- C4 witness: two pushes with `max_size = 1` leave each of the two
channels with exactly the most recent pushed point. -/
theorem c4_display_buffer_fifo_witness :
    ((pushAll 1 (initDisp 2) psW).ys.getD 1 []
        = (psW.map (fun q => q.2.getD 1 0)).drop (psW.length - 1))
      ∧ ((pushAll 1 (initDisp 2) psW).ys.getD 1 []).length = 1
      ∧ ((pushAll 1 (initDisp 2) psW).xs.getD 1 []
          = (psW.map (fun q => (q.1 : Rat) / 1000)).drop (psW.length - 1))
      ∧ ((pushAll 1 (initDisp 2) psW).xs.getD 1 []).length = 1 :=
  c4_display_buffer_fifo 2 1 psW 1 (by decide) (by decide) (by decide)
    (by decide)

/-- C5: between any two `__update` calls (each push carrying one value per
series), all `n` x-series and all `n` y-series have the same length,
namely `min (number of pushes) max_size`. -/
theorem c5_series_equal_length (n m : Nat) (ps : List (Nat × List Nat))
    (j : Nat) (hn : 0 < n) (hps : ∀ q ∈ ps, q.2.length = n) (hj : j < n) :
    ((pushAll m (initDisp n) ps).ys.getD j []).length = min ps.length m
      ∧ ((pushAll m (initDisp n) ps).xs.getD j []).length = min ps.length m := by
  obtain ⟨hx, hy⟩ := pushAll_closed n m hn ps hps
  rw [hy, hx, getD_map_range n j _ _ hj, getD_map_range n j _ _ hj]
  constructor
  · simp
    omega
  · simp
    omega

/-- C5 witness: two pushes into a two-channel buffer of capacity 3 leave
both series of channel 0 at length `min 2 3 = 2`. -/
theorem c5_series_equal_length_witness :
    ((pushAll 3 (initDisp 2) psW).ys.getD 0 []).length = min psW.length 3
      ∧ ((pushAll 3 (initDisp 2) psW).xs.getD 0 []).length = min psW.length 3 :=
  c5_series_equal_length 2 3 psW 0 (by decide) (by decide) (by decide)

/-- C6: decoding a full 24-byte packet reads bytes `[0, 4)` as the
little-endian 32-bit timestamp and, for each channel index `i < 5`, reads
bytes `[4 + 4i, 8 + 4i)` as the (bit pattern of the) little-endian 32-bit
float channel value `i`, in declared channel order.  Decoding is a pure
function of the packet bytes, hence deterministic. -/
theorem c6_decode_offsets (p : List Nat) (i : Nat) (hp : p.length = 24)
    (hi : i < 5) :
    (decodeRaw p).getD 0 0 = leWord ((p.drop 0).take 4)
      ∧ (decodeRaw p).getD (i + 1) 0 = leWord ((p.drop (4 + 4 * i)).take 4) := by
  constructor
  · rfl
  · interval_cases i <;> rfl

/-- C6 witness: the packet whose bytes are `0, 1, ..., 23`. -/
theorem c6_decode_offsets_witness :
    ((decodeRaw (List.range 24)).getD 0 0
        = leWord (((List.range 24).drop 0).take 4))
      ∧ (decodeRaw (List.range 24)).getD (3 + 1) 0
          = leWord (((List.range 24).drop (4 + 4 * 3)).take 4) :=
  c6_decode_offsets (List.range 24) 3 (by decide) (by decide)

/-- With enough fuel, a stream made of full 24-byte packets followed by a
fragment shorter than one packet splits into exactly those packets and
that fragment. -/
theorem packetizeF_full (ps : List (List Nat)) :
    ∀ (fuel : Nat) (r : List Nat), (∀ p ∈ ps, p.length = 24) →
      r.length < 24 → ps.flatten.length + r.length ≤ fuel →
      packetizeF fuel (ps.flatten ++ r) = (ps, r) := by
  induction ps with
  | nil =>
    intro fuel r _ hr _
    cases fuel with
    | zero => rfl
    | succ fuel =>
      have hc : ¬ (24 ≤ ((List.flatten ([] : List (List Nat))) ++ r).length) := by
        simp
        omega
      simp only [packetizeF]
      rw [if_neg hc]
      simp
  | cons p ps ih =>
    intro fuel r hps hr hfuel
    have hp : p.length = 24 := hps p (by simp)
    have hflat : ((p :: ps).flatten).length = 24 + ps.flatten.length := by
      simp [hp]
    cases fuel with
    | zero => omega
    | succ fuel =>
      have hc : 24 ≤ (((p :: ps).flatten) ++ r).length := by
        simp [hp]
      have htake : (((p :: ps).flatten) ++ r).take 24 = p := by
        rw [List.flatten_cons, List.append_assoc, List.take_append_eq_append_take,
          ← hp]
        simp
      have hdrop : (((p :: ps).flatten) ++ r).drop 24 = ps.flatten ++ r := by
        rw [List.flatten_cons, List.append_assoc, List.drop_append_eq_append_drop,
          ← hp]
        simp
      have hps' : ∀ x ∈ ps, x.length = 24 := fun x hx => hps x (by simp [hx])
      have hfuel' : ps.flatten.length + r.length ≤ fuel := by omega
      simp only [packetizeF]
      rw [if_pos hc, htake, hdrop, ih fuel r hps' hr hfuel']

/-- C7: when the stream consists of well-formed 24-byte packets followed
by a truncated final packet (fewer than 24 bytes), the loop processes
exactly the full packets: the truncated tail raises no error (the run is a
total function), appends no row to the log, and adds no point to any
display series — the run over the whole stream equals the run over the
full packets alone, so subsequent handling of well-formed packets is
unaffected. -/
theorem c7_truncated_packet_ignored (cfg : DAQConfig) (st : DAQState)
    (ps : List (List Nat)) (r : List Nat)
    (hps : ∀ p ∈ ps, p.length = 24) (hr : r.length < 24) :
    packetize (ps.flatten ++ r) = (ps, r)
      ∧ streamRun cfg st (ps.flatten ++ r) = getRun cfg st ps := by
  have h := packetizeF_full ps (ps.flatten ++ r).length r hps hr (by simp)
  constructor
  · exact h
  · show getRun cfg st (packetize (ps.flatten ++ r)).1 = getRun cfg st ps
    rw [show packetize (ps.flatten ++ r) = (ps, r) from h]

/-- C7 witness: one full zero packet followed by a single stray byte. -/
theorem c7_truncated_packet_ignored_witness :
    packetize (([pkt0] : List (List Nat)).flatten ++ [7]) = ([pkt0], [7])
      ∧ streamRun cfgS ⟨0, 0⟩ (([pkt0] : List (List Nat)).flatten ++ [7])
          = getRun cfgS ⟨0, 0⟩ [pkt0] :=
  c7_truncated_packet_ignored cfgS ⟨0, 0⟩ [pkt0] [7] (by decide) (by decide)

/-- C8: with logging enabled every decoded sample appends exactly one row,
in decode order, independent of the display gate; with logging disabled
the run appends nothing and `__init__` creates no file. -/
theorem c8_logging (cfg : DAQConfig) (st : DAQState) (ps : List (List Nat))
    (ds : List String) :
    getLogs cfg st ps = (if cfg.write_to_file then ps.map decodeRaw else [])
      ∧ initLog false ds = none :=
  ⟨logs_eq cfg st ps, rfl⟩

/-- C9: instrument-timestamp mode is enabled iff the first configured name
is exactly the string "time (ms)" (any other spelling, e.g. "time", leaves
it disabled); when enabled the marker is removed so one fewer series is
plotted; when disabled the full decoded row — device timestamp included as
an ordinary channel — is paired with the host-synthesized clock. -/
theorem c9_time_marker (ds : List String) (cfg : DAQConfig) (st : DAQState)
    (p : List Nat) (hds : ds ≠ []) :
    ((initNames ds).1 = true ↔ ds.headD "" = "time (ms)")
      ∧ ((initNames ds).1 = true → (initNames ds).2.length + 1 = ds.length)
      ∧ ((initNames ds).1 = false → (initNames ds).2 = ds)
      ∧ (cfg.time_from_serial = false →
          stepData cfg st p = (st.time + cfg.update_rate, decodeRaw p)) := by
  refine ⟨?_, ?_, ?_, ?_⟩
  · rw [initNames]
    by_cases h : ds.headD "" = "time (ms)"
    · rw [if_pos h]
      rw [List.headD_eq_head?_getD] at h
      simp [h]
    · rw [if_neg h]
      rw [List.headD_eq_head?_getD] at h
      simp [h]
  · intro h
    by_cases hh : ds.headD "" = "time (ms)"
    · rw [initNames, if_pos hh]
      cases ds with
      | nil => exact absurd rfl hds
      | cons a l => simp
    · rw [initNames, if_neg hh] at h
      simp at h
  · intro h
    by_cases hh : ds.headD "" = "time (ms)"
    · rw [initNames, if_pos hh] at h
      simp at h
    · rw [initNames, if_neg hh]
  · intro h
    simp [stepData, h]

/-- C9 witness: the marker spelling "time (ms)". -/
theorem c9_time_marker_witness :
    ((initNames ["time (ms)", "PT1 (barg)"]).1 = true
        ↔ (["time (ms)", "PT1 (barg)"] : List String).headD "" = "time (ms)")
      ∧ ((initNames ["time (ms)", "PT1 (barg)"]).1 = true
          → (initNames ["time (ms)", "PT1 (barg)"]).2.length + 1
              = (["time (ms)", "PT1 (barg)"] : List String).length)
      ∧ ((initNames ["time (ms)", "PT1 (barg)"]).1 = false
          → (initNames ["time (ms)", "PT1 (barg)"]).2
              = ["time (ms)", "PT1 (barg)"])
      ∧ (cfgS.time_from_serial = false
          → stepData cfgS ⟨0, 0⟩ pkt0
              = ((⟨0, 0⟩ : DAQState).time + cfgS.update_rate, decodeRaw pkt0)) :=
  c9_time_marker ["time (ms)", "PT1 (barg)"] cfgS ⟨0, 0⟩ pkt0 (by decide)

/-- C10: every logged row is the full decoded `raw_data`: the device
timestamp read from packet bytes `[0, 4)` followed by all five decoded
channel values, channel `i` being the little-endian 32-bit pattern of
bytes `[4 + 4i, 8 + 4i)`, in declared order — in both timing modes; the
log is independent of the scheduler state, so the synthesized display
clock value never reaches the log. -/
theorem c10_log_row_device_timestamp (cfg : DAQConfig) (st st' : DAQState)
    (ps : List (List Nat)) (hw : cfg.write_to_file = true) :
    getLogs cfg st ps
        = ps.map (fun p =>
            leWord ((p.drop 0).take 4)
              :: (List.range 5).map (fun i => leWord ((p.drop (4 + 4 * i)).take 4)))
      ∧ getLogs cfg st ps = getLogs cfg st' ps := by
  constructor
  · rw [logs_eq]
    simp only [hw, if_true]
    apply List.map_congr_left
    intro p _
    rfl
  · simp [logs_eq, hw]

/-- C10 witness: one zero packet, two different scheduler states. -/
theorem c10_log_row_device_timestamp_witness :
    (getLogs cfgS ⟨0, 0⟩ [pkt0]
        = ([pkt0] : List (List Nat)).map (fun p =>
            leWord ((p.drop 0).take 4)
              :: (List.range 5).map (fun i => leWord ((p.drop (4 + 4 * i)).take 4))))
      ∧ getLogs cfgS ⟨0, 0⟩ [pkt0] = getLogs cfgS ⟨5, 7⟩ [pkt0] :=
  c10_log_row_device_timestamp cfgS ⟨0, 0⟩ ⟨5, 7⟩ [pkt0] rfl
